import Mathlib

/-!
Verification of the TTML transcript extraction engine
(`extractTranscript.py`) against its natural-language specification.

The Python source is shallowly embedded: `xml.etree.ElementTree` elements
become the inductive `MarkupNode` (tag, attribute list, leading text,
children, tail text — exactly the fields the source reads); Python floats
appearing as `begin` second offsets become `ℚ`; fallible paths become
`Except`.  Every definition below is translated from the source file,
with line references; definitions written from the specification's words
(for refinement comparisons) carry `spec` in their name.
-/

namespace TTML

/-- Whitespace test used to model Python's `str.split()` / `str.strip()`
with no arguments and the regex class `\s` on `str` arguments: ASCII
whitespace, the C1 separators, and the common Unicode space characters.
Only two facts about this set matter to the proofs: `' '` belongs to it
and the characters of split tokens do not. -/
def pyIsSpace (c : Char) : Bool :=
  c = ' ' || c = '\t' || c = '\n' || c = '\x0b' || c = '\x0c' || c = '\r' ||
  c = '\x1c' || c = '\x1d' || c = '\x1e' || c = '\x1f' ||
  c = '\x85' || c = '\xa0' || c = '\u1680' ||
  (0x2000 ≤ c.val && c.val ≤ 0x200a) ||
  c = '\u2028' || c = '\u2029' || c = '\u202f' || c = '\u205f' || c = '\u3000'

/-- `str.strip()` on a character list: drop whitespace from both ends. -/
def pyStripList (cs : List Char) : List Char :=
  ((cs.dropWhile pyIsSpace).reverse.dropWhile pyIsSpace).reverse

/-- Worker for `str.split()` (no separator argument): `acc` is the
current token, reversed.  Whitespace runs end the token; empty tokens
are never produced. -/
def pySplitGo (acc : List Char) : List Char → List (List Char)
  | [] => if acc.isEmpty then [] else [acc.reverse]
  | c :: cs =>
    if pyIsSpace c then
      if acc.isEmpty then pySplitGo [] cs
      else acc.reverse :: pySplitGo [] cs
    else pySplitGo (c :: acc) cs

/-- `' '.join(tokens)`: single space between consecutive tokens. -/
def joinSp : List (List Char) → List Char
  | [] => []
  | [t] => t
  | t :: ts => t ++ ' ' :: joinSp ts

/-- `paragraph_text.strip()` followed by `' '.join(paragraph_text.split())`
(extractTranscript.py lines 96–98): the whitespace normalization applied
to every extracted unit. -/
def normalizeWs (s : String) : String :=
  ⟨joinSp (pySplitGo [] (pyStripList s.data))⟩

/-! ## The parsed-markup data model

`xml.etree.ElementTree` elements, restricted to the fields the source
reads: `element.tag` (with ElementTree's `\x7buri\x7dlocal` convention for
namespaced names), `element.attrib` (an association list; `element.get`
returns the first binding), `element.text`, iteration over children, and
`element.tail`.  `None` text/tail and `""` behave identically in the
source (`if element.text:` guards every use), so both are modelled as
`""`. -/

inductive MarkupNode : Type where
  | mk : (tag : String) → (attrib : List (String × String)) →
      (text : String) → (children : List MarkupNode) → (tail : String) →
      MarkupNode

def MarkupNode.tag : MarkupNode → String
  | .mk t _ _ _ _ => t

def MarkupNode.attrib : MarkupNode → List (String × String)
  | .mk _ a _ _ _ => a

def MarkupNode.text : MarkupNode → String
  | .mk _ _ x _ _ => x

def MarkupNode.children : MarkupNode → List MarkupNode
  | .mk _ _ _ c _ => c

def MarkupNode.tail : MarkupNode → String
  | .mk _ _ _ _ l => l

/-- `element.get(key)`: first binding of `key` in the attribute mapping,
`None` when absent. -/
def MarkupNode.get (e : MarkupNode) (key : String) : Option String :=
  (e.attrib.find? (fun kv => kv.1 = key)).map (·.2)

/-- ElementTree tag of the qualified `unit` attribute checked at
extractTranscript.py line 42. -/
def podcastsUnitKey : String :=
  "\x7bhttp://podcasts.apple.com/transcript-ttml-internal\x7dunit"

/-- Python's `a or b` on two `str`-or-`None` values: `a` when it is
present and non-empty (truthy), otherwise `b`.  Models
`child.get('unit') or child.get('\x7b...\x7dunit')` at line 42. -/
def pyOrOpt (a b : Option String) : Option String :=
  match a with
  | none => b
  | some s => if s.isEmpty then b else some s

/-- Python's `s.endswith(t)`: `t` is a suffix of `s` (as character
sequences). -/
def pyEndsWith (s t : String) : Bool :=
  s.data.reverse.take t.data.length == t.data.reverse

/-- The condition of extractTranscript.py line 43:
`child.tag.endswith('span') and unit == 'word'`. -/
def wordSpanTest (child : MarkupNode) : Bool :=
  pyEndsWith child.tag "span" &&
    pyOrOpt (child.get "unit") (child.get podcastsUnitKey) == some "word"

mutual
/-- `extract_text_from_spans` (extractTranscript.py lines 27–52):
leading text, then each child's recursive text — with a space appended
after word-unit spans — followed by the child's tail. -/
def extract_text_from_spans : MarkupNode → String
  | .mk _ _ text children _ => text ++ spansOfChildren children

/-- The `for child in element` loop body of `extract_text_from_spans`. -/
def spansOfChildren : List MarkupNode → String
  | [] => ""
  | child :: rest =>
    (extract_text_from_spans child ++ (if wordSpanTest child then " " else "")
      ++ child.tail) ++ spansOfChildren rest
end

/-! ## Timestamp formatting (`format_timestamp`, lines 11–16)

Python floats are modelled as `ℚ`; `//` is floor division, `%` is
floor-remainder (`a - b * floor(a / b)`), and `int(...)` truncates
toward zero. -/

/-- Decimal digit list of a natural number, most significant first;
`fuel`-structured so that the kernel can evaluate it (any `fuel > n`
gives the digits of `n`). -/
def natDigitsAux : ℕ → ℕ → List Char
  | 0, _ => []
  | fuel + 1, n =>
    if n < 10 then [Char.ofNat (48 + n)]
    else natDigitsAux fuel (n / 10) ++ [Char.ofNat (48 + n % 10)]

/-- Decimal digit list of a natural number, most significant first. -/
def natDigits (n : ℕ) : List Char := natDigitsAux (n + 1) n

/-- Python's `f"\x7bn:02d\x7d"`: decimal rendering zero-padded to
(total) width two; the sign counts toward the width and the padding goes
after it. -/
def pyFormat02d (n : ℤ) : String :=
  if n < 0 then
    let ds := natDigits (-n).toNat
    ⟨(if 1 + ds.length < 2 then List.replicate (2 - (1 + ds.length)) '0' else []) |>.append ds |> ('-' :: ·)⟩
  else
    let ds := natDigits n.toNat
    ⟨(if ds.length < 2 then List.replicate (2 - ds.length) '0' else []) ++ ds⟩

/-- Python `a // b` on floats (floor division), result kept as a number
the way Python keeps it a float. -/
def pyFloorDiv (a b : ℚ) : ℚ := (⌊a / b⌋ : ℤ)

/-- Python `a % b` on floats: `a - b * (a // b)`. -/
def pyMod (a b : ℚ) : ℚ := a - b * pyFloorDiv a b

/-- Python `int(x)` on a float: truncation toward zero. -/
def pyInt (q : ℚ) : ℤ := if q < 0 then -⌊-q⌋ else ⌊q⌋

/-- `format_timestamp` (extractTranscript.py lines 11–16). -/
def format_timestamp (seconds : ℚ) : String :=
  let h := pyInt (pyFloorDiv seconds 3600)
  let m := pyInt (pyFloorDiv (pyMod seconds 3600) 60)
  let s := pyInt (pyMod seconds 60)
  pyFormat02d h ++ ":" ++ pyFormat02d m ++ ":" ++ pyFormat02d s

/-! ## Filename sanitization (`sanitize_filename`, lines 19–24) -/

/-- The characters of the regex class `[<>:"/\\|?*]` at line 21. -/
def invalidFilenameChars : List Char := ['<', '>', ':', '"', '/', '\\', '|', '?', '*']

/-- `re.sub(r'[<>:"/\\|?*]', '-', ...)` acting on one character. -/
def replaceInvalidChar (c : Char) : Char :=
  if c ∈ invalidFilenameChars then '-' else c

/-- `re.sub(r'\s+', ' ', ...)`: collapse each whitespace run to one
space.  `prevWs` records whether the previous character was part of a
run whose single replacement space has already been emitted. -/
def collapseWsGo (prevWs : Bool) : List Char → List Char
  | [] => []
  | c :: cs =>
    if pyIsSpace c then
      if prevWs then collapseWsGo true cs else ' ' :: collapseWsGo true cs
    else c :: collapseWsGo false cs

/-- `sanitize_filename` (extractTranscript.py lines 19–24): replace the
invalid characters, collapse whitespace runs, strip, truncate to 200. -/
def sanitize_filename (s : String) : String :=
  ⟨(pyStripList (collapseWsGo false (s.data.map replaceInvalidChar))).take 200⟩

/-! ## The transcript assembler (`extract_transcript`, lines 55–121) -/

/-- The exceptions the source can raise, by role: `parseError` is
`xml.etree.ElementTree.ParseError` from `ET.fromstring` (line 58,
re-raised at line 118); `structureError` is the `ValueError` raised for
missing body/div structure (lines 73 and 83) — the specification's
`StructureError`; `valueError` is the `ValueError` raised by
`float(...)` on an unparsable `begin` attribute (line 102). -/
inductive PyError : Type where
  | parseError : PyError
  | structureError : String → PyError
  | valueError : String → PyError
deriving DecidableEq

/-- ElementTree tag of `'tt:body'` under the namespace mapping of
lines 61–64. -/
def ttBody : String := "\x7bhttp://www.w3.org/ns/ttml\x7dbody"

/-- ElementTree tag of `'tt:div'` under the namespace mapping. -/
def ttDiv : String := "\x7bhttp://www.w3.org/ns/ttml\x7ddiv"

/-- ElementTree tag of `'tt:p'` under the namespace mapping. -/
def ttP : String := "\x7bhttp://www.w3.org/ns/ttml\x7dp"

/-- `parent.findall(tag)` for a plain or `\x7buri\x7dlocal` tag path:
the direct children carrying exactly that tag, in document order. -/
def findall (parent : MarkupNode) (tag : String) : List MarkupNode :=
  parent.children.filter (fun c => c.tag = tag)

/-- The namespaced-then-unqualified lookup used at lines 68–70, 78–80
and 90–92: the unqualified tag is consulted only when the namespaced
`findall` came back empty. -/
def findWithFallback (parent : MarkupNode) (qualTag plainTag : String) :
    List MarkupNode :=
  if (findall parent qualTag).isEmpty then findall parent plainTag
  else findall parent qualTag

/-- Accumulate a decimal digit string onto `acc`; `none` on a non-digit. -/
def digitsToNat (acc : ℕ) : List Char → Option ℕ
  | [] => some acc
  | c :: cs => if c.isDigit then digitsToNat (acc * 10 + (c.toNat - 48)) cs else none

/-- Modelled from the spec: Python's `float(...)` (line 102) applied to a
`begin` attribute, which §4.2 interprets as "a floating-point seconds
offset".  Restricted to plain signed decimal literals — the only shape a
TTML `begin` offset takes; exponent forms, `inf`/`nan` and surrounding
whitespace are not modelled, and no claim depends on them.  `none` models
the `ValueError` that `float` raises on an unparsable string. -/
def pyFloat (s : String) : Option ℚ :=
  let (sign, cs) : ℚ × List Char :=
    match s.data with
    | '-' :: rest => (-1, rest)
    | '+' :: rest => (1, rest)
    | cs => (1, cs)
  let ip := cs.takeWhile (fun c => c.isDigit)
  let rest := cs.dropWhile (fun c => c.isDigit)
  match rest with
  | [] =>
    if ip.isEmpty then none
    else (digitsToNat 0 ip).map (fun n => sign * n)
  | '.' :: frac =>
    if ip.isEmpty && frac.isEmpty then none
    else if frac.all (fun c => c.isDigit) then
      match digitsToNat 0 ip, digitsToNat 0 frac with
      | some n, some f => some (sign * (n + (f : ℚ) / (10 : ℚ) ^ frac.length))
      | _, _ => none
    else none
  | _ => none

/-- The body of the paragraph loop (lines 94–105): normalize the
paragraph's full extracted text; an empty result contributes nothing
(`ok none`); otherwise one line, timestamp-prefixed when requested and a
`begin` attribute is present. -/
def renderParagraph (includeTimestamps : Bool) (paragraph : MarkupNode) :
    Except PyError (Option String) :=
  let paragraphText := normalizeWs (extract_text_from_spans paragraph)
  if paragraphText = "" then .ok none
  else
    match includeTimestamps, paragraph.get "begin" with
    | true, some b =>
      match pyFloat b with
      | some q => .ok (some ("[" ++ format_timestamp q ++ "] " ++ paragraphText))
      | none => .error (.valueError ("could not convert string to float: " ++ b))
    | _, _ => .ok (some paragraphText)

/-- The paragraph loop over one division's paragraphs, collecting the
lines appended to `transcript`; a raised exception aborts the loop. -/
def renderParagraphs (includeTimestamps : Bool) :
    List MarkupNode → Except PyError (List String)
  | [] => .ok []
  | p :: ps =>
    match renderParagraph includeTimestamps p with
    | .error e => .error e
    | .ok line =>
      match renderParagraphs includeTimestamps ps with
      | .error e => .error e
      | .ok rest => .ok (match line with | some l => l :: rest | none => rest)

/-- The `for div in div_elements` loop (lines 88–105): every division
contributes, in order; paragraphs are located with the
namespaced-then-unqualified fallback. -/
def transcriptOfDivs (includeTimestamps : Bool) :
    List MarkupNode → Except PyError (List String)
  | [] => .ok []
  | d :: ds =>
    match renderParagraphs includeTimestamps (findWithFallback d ttP "p") with
    | .error e => .error e
    | .ok a =>
      match transcriptOfDivs includeTimestamps ds with
      | .error e => .error e
      | .ok b => .ok (a ++ b)

/-- `extract_transcript` from a successfully parsed root (lines 58–112):
locate the body (else the line-73 `ValueError`), the divisions (else the
line-83 `ValueError`), render every division's paragraphs, and join with
the double line-break of line 108.  The returned string is exactly the
blob written to the sink at lines 111–112; every error path returns
before anything is written. -/
def assembleRoot (root : MarkupNode) (includeTimestamps : Bool) :
    Except PyError String :=
  match findWithFallback root ttBody "body" with
  | [] => .error (.structureError "No body element found in TTML")
  | body :: _ =>
    if (findWithFallback body ttDiv "div").isEmpty then
      .error (.structureError "No div element found in body")
    else
      (transcriptOfDivs includeTimestamps (findWithFallback body ttDiv "div")).map
        (String.intercalate "\n\n")

/-- `extract_transcript` (lines 55–121) over the result of
`ET.fromstring(ttml_content)`: the parse either fails
(`ET.ParseError`, modelled as the `.error` input) or yields a root. -/
def extract_transcript :
    Except Unit MarkupNode → Bool → Except PyError String
  | .error _, _ => .error .parseError
  | .ok root, includeTimestamps => assembleRoot root includeTimestamps

/-- What reaches the output file: the source writes only at lines
111–112, after the whole transcript string is assembled, so an error
leaves the sink untouched (`none`). -/
def writtenOutput (r : Except PyError String) : Option String :=
  match r with
  | .ok s => some s
  | .error _ => none

/-- The canonicalization at extractTranscript.py line 142:
`re.sub(r'(.+\.ttml)-\d+\.ttml$', r'\1', relative_path)`.  A match of
that anchored pattern must end at the end of the string, and the leftmost
match starts at position 0 (`.+` can absorb any prefix), so `re.sub`
either rewrites the whole string to group 1 or leaves it unchanged.
Group 1 is forced: scanning from the right, the string must end in
`.ttml`; before that sits the `\d+` run, which is maximal because the
character group 1 leaves immediately before it is the `-`, whose own
predecessor inside group 1 is the final `l` of `.ttml`; and `.+` demands
a non-empty remainder.  The worker runs on the reversed character list so
the suffix tests are head patterns. -/
def canonRev (r : List Char) : Option (List Char) :=
  match r with
  | 'l' :: 'm' :: 't' :: 't' :: '.' :: rest =>
    let ds := rest.takeWhile (fun c => c.isDigit)
    let r2 := rest.dropWhile (fun c => c.isDigit)
    if ds.isEmpty then none
    else
      match r2 with
      | '-' :: 'l' :: 'm' :: 't' :: 't' :: '.' :: base =>
        if base.isEmpty then none
        else some ('l' :: 'm' :: 't' :: 't' :: '.' :: base)
      | _ => none
  | _ => none

/-- The transcript-identifier canonicalization of line 142 as a whole:
strip one trailing `-«digits».ttml` cache-duplication suffix when the
pattern matches, otherwise leave the name unchanged. -/
def canonicalizeTtmlName (s : String) : String :=
  match canonRev s.data.reverse with
  | some r => ⟨r.reverse⟩
  | none => s

/-! ## Lemmas about splitting and whitespace normalization -/

theorem pySplitGo_all_ws {w : List Char} (hw : ∀ c ∈ w, pyIsSpace c = true) :
    ∀ acc : List Char,
      pySplitGo acc w = if acc.isEmpty then [] else [acc.reverse] := by
  induction w with
  | nil => intro acc; rfl
  | cons c w ih =>
    intro acc
    have hc : pyIsSpace c = true := hw c (by simp)
    have hw' : ∀ x ∈ w, pyIsSpace x = true := fun x hx => hw x (by simp [hx])
    by_cases hacc : acc.isEmpty
    · simp [pySplitGo, hc, hacc, ih hw']
    · simp [pySplitGo, hc, hacc, ih hw']

theorem pySplitGo_append_ws {w : List Char} (hw : ∀ c ∈ w, pyIsSpace c = true) :
    ∀ (cs : List Char) (acc : List Char),
      pySplitGo acc (cs ++ w) = pySplitGo acc cs := by
  intro cs
  induction cs with
  | nil =>
    intro acc
    simpa [pySplitGo] using pySplitGo_all_ws hw acc
  | cons c cs ih =>
    intro acc
    by_cases hc : pyIsSpace c
    · by_cases hacc : acc.isEmpty <;> simp [pySplitGo, hc, hacc, ih]
    · simp [pySplitGo, hc, ih]

theorem pySplitGo_dropWhile (cs : List Char) :
    pySplitGo [] (cs.dropWhile pyIsSpace) = pySplitGo [] cs := by
  induction cs with
  | nil => rfl
  | cons c cs ih =>
    by_cases hc : pyIsSpace c
    · simpa [List.dropWhile_cons, hc, pySplitGo] using ih
    · simp [List.dropWhile_cons, hc]

/-- Stripping leading and trailing whitespace does not change the split. -/
theorem pySplitGo_pyStrip (cs : List Char) :
    pySplitGo [] (pyStripList cs) = pySplitGo [] cs := by
  unfold pyStripList
  set d := cs.dropWhile pyIsSpace with hd
  have hdecomp : d = (d.reverse.dropWhile pyIsSpace).reverse ++
      (d.reverse.takeWhile pyIsSpace).reverse := by
    have := List.takeWhile_append_dropWhile pyIsSpace d.reverse
    calc d = d.reverse.reverse := (List.reverse_reverse d).symm
    _ = (d.reverse.takeWhile pyIsSpace ++ d.reverse.dropWhile pyIsSpace).reverse := by
        rw [this]
    _ = _ := by rw [List.reverse_append]
  have hw : ∀ c ∈ (d.reverse.takeWhile pyIsSpace).reverse, pyIsSpace c = true := by
    intro c hc
    rw [List.mem_reverse] at hc
    exact List.mem_takeWhile_imp hc
  calc pySplitGo [] (d.reverse.dropWhile pyIsSpace).reverse
      = pySplitGo [] ((d.reverse.dropWhile pyIsSpace).reverse ++
          (d.reverse.takeWhile pyIsSpace).reverse) :=
        (pySplitGo_append_ws hw _ []).symm
    _ = pySplitGo [] d := by rw [← hdecomp]
    _ = pySplitGo [] cs := pySplitGo_dropWhile cs

theorem pySplitGo_token {t : List Char} (ht : ∀ c ∈ t, pyIsSpace c = false) :
    ∀ (cs acc : List Char),
      pySplitGo acc (t ++ cs) = pySplitGo (t.reverse ++ acc) cs := by
  induction t with
  | nil => intro cs acc; rfl
  | cons c t ih =>
    intro cs acc
    have hc : pyIsSpace c = false := ht c (by simp)
    have ht' : ∀ x ∈ t, pyIsSpace x = false := fun x hx => ht x (by simp [hx])
    simp [pySplitGo, hc, ih ht', List.append_assoc]

/-- The members of any `pySplitGo` output are non-empty and free of
whitespace characters. -/
theorem pySplitGo_tokens :
    ∀ (cs acc : List Char), (∀ c ∈ acc, pyIsSpace c = false) →
      ∀ t ∈ pySplitGo acc cs, t ≠ [] ∧ ∀ c ∈ t, pyIsSpace c = false := by
  intro cs
  induction cs with
  | nil =>
    intro acc hacc t ht
    simp only [pySplitGo] at ht
    by_cases h : acc.isEmpty
    · simp [h] at ht
    · simp [h] at ht
      subst ht
      refine ⟨by simp_all, ?_⟩
      intro c hc
      exact hacc c (List.mem_reverse.mp hc)
  | cons c cs ih =>
    intro acc hacc t ht
    by_cases hc : pyIsSpace c
    · simp only [pySplitGo, hc, if_true] at ht
      by_cases hacc' : acc.isEmpty
      · simp only [hacc', if_true] at ht
        exact ih [] (by simp) t ht
      · simp only [hacc', if_false] at ht
        rcases List.mem_cons.mp ht with h | h
        · subst h
          refine ⟨by simp_all, ?_⟩
          intro x hx
          exact hacc x (List.mem_reverse.mp hx)
        · exact ih [] (by simp) t h
    · simp only [pySplitGo, hc, if_false] at ht
      refine ih (c :: acc) ?_ t ht
      intro x hx
      rcases List.mem_cons.mp hx with h | h
      · subst h; simpa using hc
      · exact hacc x h

/-- Splitting the space-joined tokens recovers the tokens. -/
theorem pySplitGo_joinSp :
    ∀ ts : List (List Char),
      (∀ t ∈ ts, t ≠ [] ∧ ∀ c ∈ t, pyIsSpace c = false) →
      pySplitGo [] (joinSp ts) = ts := by
  intro ts
  induction ts with
  | nil => intro _; rfl
  | cons t ts ih =>
    intro h
    obtain ⟨htne, htws⟩ := h t (by simp)
    have hts : ∀ u ∈ ts, u ≠ [] ∧ ∀ c ∈ u, pyIsSpace c = false :=
      fun u hu => h u (by simp [hu])
    match ts, ih with
    | [], _ =>
      show pySplitGo [] (joinSp [t]) = [t]
      have : joinSp [t] = t ++ [] := by simp [joinSp]
      rw [this, pySplitGo_token htws [] []]
      simp [pySplitGo, List.isEmpty_iff, htne]
    | u :: ts', ih =>
      show pySplitGo [] (t ++ ' ' :: joinSp (u :: ts')) = t :: u :: ts'
      rw [pySplitGo_token htws _ []]
      have haccne : (t.reverse ++ []).isEmpty = false := by
        simp [List.isEmpty_iff, htne]
      simp only [pySplitGo, show pyIsSpace ' ' = true from rfl, if_true, haccne,
        if_false]
      simp [ih hts]

/-- C7: Whitespace normalization (collapsing every run of whitespace
characters to a single ASCII space and trimming leading and trailing
whitespace, realized by the source as `' '.join(text.strip().split())`)
is idempotent: applying it twice yields the same result as applying it
once, for every string. -/
theorem c7_normalizeWs_idempotent (s : String) :
    normalizeWs (normalizeWs s) = normalizeWs s := by
  show (⟨joinSp (pySplitGo [] (pyStripList
      (joinSp (pySplitGo [] (pyStripList s.data)))))⟩ : String) = _
  have h := pySplitGo_tokens (pyStripList s.data) [] (by simp)
  rw [pySplitGo_pyStrip, pySplitGo_joinSp _ h]
  rfl

/-! ## The sanitization rule (C8) -/

/-- The specification's wording of `re.sub(r'\s+', ' ', ...)`: each
maximal run of whitespace characters contributes exactly one ASCII
space (emitted as the walk reaches the run's last character; all other
characters pass through unchanged). -/
def collapseRuns : List Char → List Char
  | [] => []
  | [c] => if pyIsSpace c then [' '] else [c]
  | c :: c' :: cs =>
    if pyIsSpace c then
      if pyIsSpace c' then collapseRuns (c' :: cs)
      else ' ' :: collapseRuns (c' :: cs)
    else c :: collapseRuns (c' :: cs)

theorem collapseWsGo_eq :
    ∀ cs : List Char,
      (collapseWsGo false cs = collapseRuns cs ∧
       collapseWsGo true cs = collapseRuns (cs.dropWhile pyIsSpace)) ∧
      ∀ c, pyIsSpace c = true →
        collapseRuns (c :: cs) = ' ' :: collapseRuns (cs.dropWhile pyIsSpace) := by
  intro cs
  induction cs with
  | nil =>
    refine ⟨⟨rfl, rfl⟩, fun c hc => ?_⟩
    simp [collapseRuns, hc]
  | cons c' cs ih =>
    obtain ⟨⟨ihP, ihQ⟩, ihR⟩ := ih
    by_cases hc' : pyIsSpace c'
    · refine ⟨⟨?_, ?_⟩, fun c hc => ?_⟩
      · simp only [collapseWsGo, hc', if_true, ihQ]
        exact (ihR c' hc').symm
      · simp only [collapseWsGo, hc', if_true, ihQ, List.dropWhile_cons,
          if_true]
      · simp only [collapseRuns, hc', if_true, List.dropWhile_cons, hc]
        exact ihR c' hc'
    · refine ⟨⟨?_, ?_⟩, fun c hc => ?_⟩
      · simp only [collapseWsGo, hc', if_false, ihP]
        cases cs with
        | nil => simp [collapseRuns, hc']
        | cons d ds => simp [collapseRuns, hc']
      · simp only [collapseWsGo, hc', if_false, ihP, List.dropWhile_cons]
        cases cs with
        | nil => simp [collapseRuns, hc']
        | cons d ds => simp [collapseRuns, hc']
      · simp [collapseRuns, hc, hc', List.dropWhile_cons]

theorem mem_collapseWsGo {c : Char} :
    ∀ (cs : List Char) (b : Bool), c ∈ collapseWsGo b cs → c = ' ' ∨ c ∈ cs := by
  intro cs
  induction cs with
  | nil => intro b h; simp [collapseWsGo] at h
  | cons x cs ih =>
    intro b h
    by_cases hx : pyIsSpace x
    · cases b with
      | true =>
        simp only [collapseWsGo, hx, if_true] at h
        rcases ih true h with h | h
        · exact Or.inl h
        · exact Or.inr (by simp [h])
      | false =>
        simp only [collapseWsGo, hx, if_true] at h
        rcases List.mem_cons.mp h with h | h
        · exact Or.inl h
        · rcases ih true h with h | h
          · exact Or.inl h
          · exact Or.inr (by simp [h])
    · simp only [collapseWsGo, hx, if_false] at h
      rcases List.mem_cons.mp h with h | h
      · exact Or.inr (by simp [h])
      · rcases ih false h with h | h
        · exact Or.inl h
        · exact Or.inr (by simp [h])

theorem mem_pyStripList {c : Char} {cs : List Char} (h : c ∈ pyStripList cs) :
    c ∈ cs := by
  unfold pyStripList at h
  rw [List.mem_reverse] at h
  have h1 := List.dropWhile_sublist (l := (cs.dropWhile pyIsSpace).reverse)
    (p := pyIsSpace)
  have h2 : c ∈ (cs.dropWhile pyIsSpace).reverse := h1.subset h
  rw [List.mem_reverse] at h2
  exact (List.dropWhile_sublist (l := cs) (p := pyIsSpace)).subset h2

/-- C8: `sanitize_filename` replaces each occurrence of the characters
`< > : " / \ | ? *` by `-`, collapses every whitespace run to a single
space, trims leading and trailing whitespace, and truncates to at most
200 characters (stated as agreement with the specification-worded
pipeline built on `collapseRuns`); in particular
`Show: "Best" Episode?` sanitizes to `Show- -Best- Episode-`, every
result has at most 200 characters, and no invalid character survives. -/
theorem c8_sanitize_filename :
    (∀ s : String, sanitize_filename s =
      ⟨(pyStripList (collapseRuns (s.data.map replaceInvalidChar))).take 200⟩) ∧
    sanitize_filename "Show: \"Best\" Episode?" = "Show- -Best- Episode-" ∧
    (∀ s : String, (sanitize_filename s).length ≤ 200) ∧
    (∀ s : String, ∀ c ∈ (sanitize_filename s).data, c ∉ invalidFilenameChars) := by
  refine ⟨fun s => ?_, rfl, fun s => ?_, fun s c hc => ?_⟩
  · unfold sanitize_filename
    rw [(collapseWsGo_eq (s.data.map replaceInvalidChar)).1.1]
  · show ((pyStripList (collapseWsGo false (s.data.map replaceInvalidChar))).take
      200).length ≤ 200
    simp
  · have hc' : c ∈ pyStripList (collapseWsGo false (s.data.map replaceInvalidChar)) :=
      List.take_subset 200 _ hc
    have hc'' := mem_pyStripList hc'
    rcases mem_collapseWsGo _ false hc'' with h | h
    · subst h; decide
    · rcases List.mem_map.mp h with ⟨x, _, hx⟩
      subst hx
      unfold replaceInvalidChar
      by_cases hmem : x ∈ invalidFilenameChars
      · simp only [hmem, if_true]; decide
      · simp [hmem]

/-! ## Identifier canonicalization (C9) -/

theorem takeWhile_append_all {p : Char → Bool} :
    ∀ {l1 : List Char}, (∀ c ∈ l1, p c = true) →
      ∀ l2 : List Char, (l1 ++ l2).takeWhile p = l1 ++ l2.takeWhile p := by
  intro l1
  induction l1 with
  | nil => intro _ l2; simp
  | cons c l1 ih =>
    intro h l2
    have hc : p c = true := h c (by simp)
    simp [List.takeWhile_cons, hc, ih (fun x hx => h x (by simp [hx]))]

theorem dropWhile_append_all {p : Char → Bool} :
    ∀ {l1 : List Char}, (∀ c ∈ l1, p c = true) →
      ∀ l2 : List Char, (l1 ++ l2).dropWhile p = l2.dropWhile p := by
  intro l1
  induction l1 with
  | nil => intro _ l2; simp
  | cons c l1 ih =>
    intro h l2
    have hc : p c = true := h c (by simp)
    simp [List.dropWhile_cons, hc, ih (fun x hx => h x (by simp [hx]))]

/-- Inversion of a successful `canonRev` run: the reversed input must be
`.ttml` + digit run + `-.ttml` + non-empty base, all reversed, and the
output drops the digit block. -/
theorem canonRev_some {r out : List Char} (h : canonRev r = some out) :
    ∃ ds rest2 : List Char, (∀ c ∈ ds, c.isDigit = true) ∧ ds ≠ [] ∧
      rest2 ≠ [] ∧
      r = 'l' :: 'm' :: 't' :: 't' :: '.' ::
        (ds ++ '-' :: 'l' :: 'm' :: 't' :: 't' :: '.' :: rest2) ∧
      out = 'l' :: 'm' :: 't' :: 't' :: '.' :: rest2 := by
  unfold canonRev at h
  split at h
  case h_2 => exact absurd h (by simp)
  case h_1 _ rest =>
    rcases hds : rest.takeWhile (fun c => c.isDigit) with _ | ⟨d0, ds'⟩
    · rw [hds] at h; simp at h
    · rw [hds] at h
      simp only [List.isEmpty_cons, Bool.false_eq_true, if_false] at h
      split at h
      case h_2 => exact absurd h (by simp)
      case h_1 _ rest2 heq =>
        rcases hr2 : rest2 with _ | ⟨b0, bs⟩
        · subst hr2; simp at h
        · subst hr2
          simp only [List.isEmpty_cons, Bool.false_eq_true, if_false,
            Option.some.injEq] at h
          refine ⟨d0 :: ds', b0 :: bs, ?_, by simp, by simp, ?_, h.symm⟩
          · intro c hc
            rw [← hds] at hc
            exact List.mem_takeWhile_imp hc
          · have hsplit := List.takeWhile_append_dropWhile
              (fun c => c.isDigit) rest
            rw [hds, heq] at hsplit
            rw [← hsplit]

theorem canonRev_concrete (B D : List Char) (hB : B ≠ []) (hD : D ≠ [])
    (hDd : ∀ c ∈ D, c.isDigit = true) :
    canonRev ('l' :: 'm' :: 't' :: 't' :: '.' ::
        (D ++ '-' :: 'l' :: 'm' :: 't' :: 't' :: '.' :: B)) =
      some ('l' :: 'm' :: 't' :: 't' :: '.' :: B) := by
  simp only [canonRev]
  rw [takeWhile_append_all hDd, dropWhile_append_all hDd]
  have h1 : List.takeWhile (fun c => c.isDigit)
      ('-' :: 'l' :: 'm' :: 't' :: 't' :: '.' :: B) = [] := by
    simp [List.takeWhile_cons]
  have h2 : List.dropWhile (fun c => c.isDigit)
      ('-' :: 'l' :: 'm' :: 't' :: 't' :: '.' :: B) =
      '-' :: 'l' :: 'm' :: 't' :: 't' :: '.' :: B := by
    simp [List.dropWhile_cons]
  rw [h1, h2]
  simp [List.isEmpty_iff, hD, hB]

/-- The character data of a string determines it; non-empty strings have
non-empty data. -/
theorem string_data_ne {s : String} (h : s ≠ "") : s.data ≠ [] := by
  intro hd
  apply h
  cases s with
  | mk d => cases hd; rfl

/-- C9: for every filename of the form `«base».ttml-«digits».ttml` the
canonical transcript identifier produced by line 142 before metadata
lookup is `«base».ttml`; every other filename is left unchanged (every
input is either returned unchanged or is of the pattern form and gets
its digit suffix stripped); in particular `episode123.ttml-5.ttml`
canonicalizes to `episode123.ttml`. -/
theorem c9_canonical_identifier :
    (∀ base digits : String, base ≠ "" → digits ≠ "" →
      (∀ c ∈ digits.data, c.isDigit = true) →
      canonicalizeTtmlName (base ++ ".ttml-" ++ digits ++ ".ttml") =
        base ++ ".ttml") ∧
    (∀ s : String, canonicalizeTtmlName s = s ∨
      ∃ base digits : String, base ≠ "" ∧ digits ≠ "" ∧
        (∀ c ∈ digits.data, c.isDigit = true) ∧
        s = base ++ ".ttml-" ++ digits ++ ".ttml" ∧
        canonicalizeTtmlName s = base ++ ".ttml") ∧
    canonicalizeTtmlName "episode123.ttml-5.ttml" = "episode123.ttml" := by
  refine ⟨fun base digits hb hd hdd => ?_, fun s => ?_, rfl⟩
  · have hrev : (base ++ ".ttml-" ++ digits ++ ".ttml").data.reverse =
        'l' :: 'm' :: 't' :: 't' :: '.' ::
          (digits.data.reverse ++ '-' :: 'l' :: 'm' :: 't' :: 't' :: '.' ::
            base.data.reverse) := by
      simp [String.data_append, List.reverse_append]
    have hDd : ∀ c ∈ digits.data.reverse, c.isDigit = true := by
      intro c hc; exact hdd c (List.mem_reverse.mp hc)
    have hB : base.data.reverse ≠ [] := by
      simpa using string_data_ne hb
    have hD : digits.data.reverse ≠ [] := by
      simpa using string_data_ne hd
    unfold canonicalizeTtmlName
    rw [hrev, canonRev_concrete _ _ hB hD hDd]
    show (⟨('l' :: 'm' :: 't' :: 't' :: '.' :: base.data.reverse).reverse⟩ :
      String) = base ++ ".ttml"
    have : ('l' :: 'm' :: 't' :: 't' :: '.' :: base.data.reverse).reverse =
        (base ++ ".ttml").data := by
      simp [String.data_append]
    rw [this]
  · rcases hm : canonRev s.data.reverse with _ | r
    · left
      unfold canonicalizeTtmlName
      rw [hm]
    · right
      obtain ⟨ds, rest2, hdig, hdne, hrne, hr, hout⟩ := canonRev_some hm
      refine ⟨⟨rest2.reverse⟩, ⟨ds.reverse⟩, ?_, ?_, ?_, ?_, ?_⟩
      · intro hc
        apply hrne
        have : rest2.reverse = [] := congrArg String.data hc
        simpa using this
      · intro hc
        apply hdne
        have : ds.reverse = [] := congrArg String.data hc
        simpa using this
      · intro c hc
        exact hdig c (List.mem_reverse.mp hc)
      · have hs : s.data = s.data.reverse.reverse := (List.reverse_reverse _).symm
        cases s with
        | mk sd =>
          have : sd = sd.reverse.reverse := (List.reverse_reverse _).symm
          show String.mk sd = _
          rw [this]
          show String.mk (List.reverse sd.reverse) = _
          rw [show sd.reverse = 'l' :: 'm' :: 't' :: 't' :: '.' ::
            (ds ++ '-' :: 'l' :: 'm' :: 't' :: 't' :: '.' :: rest2) from hr]
          apply congrArg String.mk
          simp [String.data_append, List.reverse_append]
      · unfold canonicalizeTtmlName
        rw [hm, hout]
        apply congrArg String.mk
        simp [String.data_append, List.reverse_append]

/-- Witness for C9 at the concrete input `episode123.ttml-5.ttml`. -/
theorem c9_canonical_identifier_witness :
    canonicalizeTtmlName ("episode123" ++ ".ttml-" ++ "5" ++ ".ttml") =
      "episode123" ++ ".ttml" :=
  c9_canonical_identifier.1 "episode123" "5" (by decide) (by decide) (by decide)

/-! ## Timestamp formatting facts (C6) -/

/-- The specification's `HH`/`MM`/`SS` field: decimal digits of a
natural number, zero-padded on the left to width two. -/
def natPad2 (n : ℕ) : String :=
  ⟨(if (natDigits n).length < 2 then List.replicate (2 - (natDigits n).length) '0'
    else []) ++ natDigits n⟩

theorem pyFormat02d_ofNat (n : ℕ) : pyFormat02d (n : ℤ) = natPad2 n := by
  unfold pyFormat02d natPad2
  rw [if_neg (by exact_mod_cast Int.not_lt.mpr (Int.natCast_nonneg n))]
  simp

theorem pyInt_eq_floor {x : ℚ} (hx : 0 ≤ x) : pyInt x = ⌊x⌋ := by
  unfold pyInt
  rw [if_neg (not_lt.2 hx)]

theorem floorDiv_toNat (q : ℚ) (n : ℕ) :
    ⌊q / (n : ℚ)⌋.toNat = ⌊q⌋.toNat / n := by
  rw [Int.floor_toNat, Int.floor_toNat, ← Nat.floor_div_nat q n]

theorem pyMod_nonneg {a : ℚ} {b : ℚ} (hb : 0 < b) (_ha : 0 ≤ a) :
    0 ≤ pyMod a b := by
  unfold pyMod pyFloorDiv
  have h1 : ((⌊a / b⌋ : ℤ) : ℚ) ≤ a / b := Int.floor_le (a / b)
  have h2 : b * ((⌊a / b⌋ : ℤ) : ℚ) ≤ b * (a / b) :=
    mul_le_mul_of_nonneg_left h1 (le_of_lt hb)
  rw [mul_div_cancel₀ a (ne_of_gt hb)] at h2
  linarith

theorem pyMod_floor (q : ℚ) (n : ℕ) :
    ⌊pyMod q (n : ℚ)⌋ = ⌊q⌋ - n * ⌊q / (n : ℚ)⌋ := by
  unfold pyMod pyFloorDiv
  have : q - (n : ℚ) * ((⌊q / (n : ℚ)⌋ : ℤ) : ℚ) =
      q - (((n : ℤ) * ⌊q / (n : ℚ)⌋ : ℤ) : ℚ) := by push_cast; ring
  rw [this, Int.floor_sub_int]

/-- The general shape of `format_timestamp` on a non-negative offset:
truncate to whole seconds, then render `H:M:S` with two-digit
zero-padded fields. -/
theorem format_timestamp_eq (q : ℚ) (hq : 0 ≤ q) :
    format_timestamp q =
      natPad2 (⌊q⌋.toNat / 3600) ++ ":" ++
      natPad2 (⌊q⌋.toNat % 3600 / 60) ++ ":" ++
      natPad2 (⌊q⌋.toNat % 60) := by
  have h3600 : ((3600 : ℕ) : ℚ) = (3600 : ℚ) := by norm_num
  have h60 : ((60 : ℕ) : ℚ) = (60 : ℚ) := by norm_num
  have hT : (0 : ℤ) ≤ ⌊q⌋ := Int.floor_nonneg.2 hq
  -- hours field
  have hknn : (0 : ℤ) ≤ ⌊q / 3600⌋ :=
    Int.floor_nonneg.2 (div_nonneg hq (by norm_num))
  have hh : pyInt (pyFloorDiv q 3600) = ⌊q / 3600⌋ := by
    unfold pyFloorDiv
    rw [pyInt_eq_floor (by exact_mod_cast hknn), Int.floor_intCast]
  have hhtoNat : ⌊q / 3600⌋.toNat = ⌊q⌋.toNat / 3600 := by
    rw [← h3600, floorDiv_toNat]
  -- minutes field
  have hrnn : 0 ≤ pyMod q 3600 := pyMod_nonneg (by norm_num) hq
  have hmnn : (0 : ℤ) ≤ ⌊pyMod q 3600 / 60⌋ :=
    Int.floor_nonneg.2 (div_nonneg hrnn (by norm_num))
  have hm : pyInt (pyFloorDiv (pyMod q 3600) 60) = ⌊pyMod q 3600 / 60⌋ := by
    unfold pyFloorDiv
    rw [pyInt_eq_floor (by exact_mod_cast hmnn), Int.floor_intCast]
  have hrfloor : ⌊pyMod q 3600⌋ = ⌊q⌋ - 3600 * ⌊q / 3600⌋ := by
    have := pyMod_floor q 3600
    rw [h3600] at this
    exact_mod_cast this
  have hmtoNat : ⌊pyMod q 3600 / 60⌋.toNat = ⌊q⌋.toNat % 3600 / 60 := by
    rw [← h60, floorDiv_toNat, hrfloor]
    have h1 : ⌊q / 3600⌋.toNat = ⌊q⌋.toNat / 3600 := hhtoNat
    omega
  -- seconds field
  have hr60nn : 0 ≤ pyMod q 60 := pyMod_nonneg (by norm_num) hq
  have hs : pyInt (pyMod q 60) = ⌊pyMod q 60⌋ := pyInt_eq_floor hr60nn
  have hr60floor : ⌊pyMod q 60⌋ = ⌊q⌋ - 60 * ⌊q / 60⌋ := by
    have := pyMod_floor q 60
    rw [h60] at this
    exact_mod_cast this
  have hstoNat : ⌊pyMod q 60⌋.toNat = ⌊q⌋.toNat % 60 := by
    rw [hr60floor]
    have h1 : ⌊q / 60⌋.toNat = ⌊q⌋.toNat / 60 := by
      rw [← h60, floorDiv_toNat]
    have h2 : (0 : ℤ) ≤ ⌊q / 60⌋ :=
      Int.floor_nonneg.2 (div_nonneg hq (by norm_num))
    omega
  show pyFormat02d (pyInt (pyFloorDiv q 3600)) ++ ":" ++
      pyFormat02d (pyInt (pyFloorDiv (pyMod q 3600) 60)) ++ ":" ++
      pyFormat02d (pyInt (pyMod q 60)) = _
  rw [hh, hm, hs]
  rw [show ⌊q / 3600⌋ = ((⌊q / 3600⌋.toNat : ℕ) : ℤ) from
      (Int.toNat_of_nonneg hknn).symm,
    show ⌊pyMod q 3600 / 60⌋ = ((⌊pyMod q 3600 / 60⌋.toNat : ℕ) : ℤ) from
      (Int.toNat_of_nonneg hmnn).symm,
    show ⌊pyMod q 60⌋ = ((⌊pyMod q 60⌋.toNat : ℕ) : ℤ) from
      (Int.toNat_of_nonneg (Int.floor_nonneg.2 hr60nn)).symm]
  rw [pyFormat02d_ofNat, pyFormat02d_ofNat, pyFormat02d_ofNat]
  rw [hhtoNat, hmtoNat, hstoNat]

theorem natDigitsAux_small {fuel n : ℕ} (hf : 0 < fuel) (hn : n < 10) :
    natDigitsAux fuel n = [Char.ofNat (48 + n)] := by
  cases fuel with
  | zero => omega
  | succ f => simp [natDigitsAux, hn]

theorem natDigitsAux_len2 {fuel n : ℕ} (hfn : n < fuel) (h10 : 10 ≤ n)
    (h99 : n ≤ 99) : (natDigitsAux fuel n).length = 2 := by
  cases fuel with
  | zero => omega
  | succ f =>
    have hn10 : ¬n < 10 := by omega
    simp only [natDigitsAux, hn10, if_false]
    rw [natDigitsAux_small (by omega) (by omega)]
    rfl

theorem natDigitsAux_len3 :
    ∀ fuel, ∀ n : ℕ, n < fuel → 100 ≤ n → 3 ≤ (natDigitsAux fuel n).length := by
  intro fuel
  induction fuel with
  | zero => intro n h _; omega
  | succ f ih =>
    intro n hn h100
    have hn10 : ¬n < 10 := by omega
    simp only [natDigitsAux, hn10, if_false, List.length_append,
      List.length_singleton]
    by_cases h : n / 10 ≤ 99
    · rw [natDigitsAux_len2 (by omega) (by omega) h]
    · have := ih (n / 10) (by omega) (by omega)
      omega

theorem natPad2_length (n : ℕ) : (natPad2 n).length = 2 ↔ n ≤ 99 := by
  unfold natPad2 natDigits
  show (_ ++ _ : List Char).length = 2 ↔ _
  by_cases h9 : n < 10
  · rw [natDigitsAux_small (by omega) h9]
    simp
    omega
  · by_cases h99 : n ≤ 99
    · have hl : (natDigitsAux (n + 1) n).length = 2 :=
        natDigitsAux_len2 (by omega) (by omega) h99
      simp [hl]
      omega
    · have h3 := natDigitsAux_len3 (n + 1) n (by omega) (by omega)
      constructor
      · intro hlen
        rw [if_neg (by omega)] at hlen
        simp at hlen
        omega
      · intro h; omega

theorem hours_field_eq (q : ℚ) (hq : 0 ≤ q) :
    pyFormat02d (pyInt (pyFloorDiv q 3600)) = natPad2 (⌊q⌋.toNat / 3600) := by
  have hknn : (0 : ℤ) ≤ ⌊q / 3600⌋ :=
    Int.floor_nonneg.2 (div_nonneg hq (by norm_num))
  have hh : pyInt (pyFloorDiv q 3600) = ⌊q / 3600⌋ := by
    unfold pyFloorDiv
    rw [pyInt_eq_floor (by exact_mod_cast hknn), Int.floor_intCast]
  have hhtoNat : ⌊q / 3600⌋.toNat = ⌊q⌋.toNat / 3600 := by
    rw [show (3600 : ℚ) = ((3600 : ℕ) : ℚ) by norm_num, floorDiv_toNat]
  rw [hh, show ⌊q / 3600⌋ = ((⌊q / 3600⌋.toNat : ℕ) : ℤ) from
    (Int.toNat_of_nonneg hknn).symm, pyFormat02d_ofNat, hhtoNat]

/-- C6: `format_timestamp` truncates (does not round) its non-negative
seconds input to whole seconds and renders hours, minutes and seconds
zero-padded to two digits each; `format_timestamp 0 = "00:00:00"`,
`format_timestamp 3661.9 = "01:01:01"`,
`format_timestamp 7200 = "02:00:00"`; and the hours field keeps width
two exactly as long as the hour count does not exceed 99. -/
theorem c6_format_timestamp (q : ℚ) (hq : 0 ≤ q) :
    format_timestamp q =
      natPad2 (⌊q⌋.toNat / 3600) ++ ":" ++
      natPad2 (⌊q⌋.toNat % 3600 / 60) ++ ":" ++
      natPad2 (⌊q⌋.toNat % 60) ∧
    format_timestamp 0 = "00:00:00" ∧
    format_timestamp (3661.9 : ℚ) = "01:01:01" ∧
    format_timestamp (7200 : ℚ) = "02:00:00" ∧
    ((pyFormat02d (pyInt (pyFloorDiv q 3600))).length = 2 ↔
      ⌊q⌋.toNat / 3600 ≤ 99) := by
  refine ⟨format_timestamp_eq q hq, ?_, ?_, ?_, ?_⟩
  · rw [format_timestamp_eq 0 le_rfl]
    norm_num
    rfl
  · rw [format_timestamp_eq (3661.9 : ℚ) (by norm_num)]
    have h : ⌊(3661.9 : ℚ)⌋ = 3661 := by norm_num
    rw [h]
    rfl
  · rw [format_timestamp_eq (7200 : ℚ) (by norm_num)]
    have h : ⌊(7200 : ℚ)⌋ = 7200 := by norm_num
    rw [h]
    rfl
  · rw [hours_field_eq q hq]
    exact natPad2_length _

/-- Witness for C6 at the concrete offset `3661.9`. -/
theorem c6_format_timestamp_witness :
    (0 : ℚ) ≤ 3661.9 ∧ format_timestamp (3661.9 : ℚ) = "01:01:01" :=
  ⟨by norm_num, (c6_format_timestamp (3661.9 : ℚ) (by norm_num)).2.2.1⟩

/-! ## The text extractor against its specification (C2)

The claim describes the separator condition as "the child is a
span-tagged node whose unit classification equals `word`".  Written from
those words and the specification's data model (§3: a tag name qualified
by an optional namespace; §9: candidate attribute keys unqualified then
qualified, tried in sequence): -/

/-- Written from the claim's words: a *span-tagged* node — its tag is
`span`, under an optional `\x7buri\x7d` namespace qualifier. -/
def specSpanTagged (e : MarkupNode) : Bool :=
  e.tag = "span" ||
    (e.tag.data.take 1 == ['\x7b'] && pyEndsWith e.tag "\x7dspan")

/-- Written from the spec's words (§9): the unit classification is read
from the ordered candidate keys — unqualified first, then qualified —
the first *present* binding winning. -/
def specUnitClass (e : MarkupNode) : Option String :=
  match e.get "unit" with
  | some v => some v
  | none => e.get podcastsUnitKey

/-- The claim's separator condition, from its words. -/
def specSep (e : MarkupNode) : Bool :=
  specSpanTagged e && specUnitClass e == some "word"

/-- Concatenation of a list of strings, in order. -/
def concatStrings : List String → String
  | [] => ""
  | s :: ss => s ++ concatStrings ss

mutual
/-- The extraction formula exactly as claim C2 words it: own leading
text, then for each child in order its recursive text, a single space
iff the claim's separator condition holds, then the child's tail. -/
def specExtractText : MarkupNode → String
  | .mk _ _ text children _ => text ++ concatStrings (specPieces children)

/-- Per-child pieces of `specExtractText`. -/
def specPieces : List MarkupNode → List String
  | [] => []
  | c :: cs =>
    (specExtractText c ++ (if specSep c then " " else "") ++ c.tail) ::
      specPieces cs
end

/-- A paragraph on which the claim's formula and the code disagree
twice over: a `word`-unit child whose tag merely *ends* in `span`
(`xspan` — not span-tagged, yet the code inserts a space), and a true
span child whose unqualified `unit` is the empty string while the
qualified one is `word` (the claim's first-present resolution reads
`""`; Python's `or` skips the falsy empty string and reads `word`). -/
def cexC2 : MarkupNode :=
  .mk "p" [] ""
    [.mk "xspan" [("unit", "word")] "A" [] "",
     .mk "span" [("unit", ""), (podcastsUnitKey, "word")] "B" [] ""] ""

/-- Counterexample to C2 as stated: on `cexC2` the code returns
`"A B "` while the claim's formula returns `"AB"`. -/
theorem c2_extract_text_counterexample :
    extract_text_from_spans cexC2 = "A B " ∧
    specExtractText cexC2 = "AB" ∧
    extract_text_from_spans cexC2 ≠ specExtractText cexC2 :=
  ⟨rfl, rfl, by decide⟩

/-- The amended separator condition: the child's tag *ends with*
`span`, and its effective unit value — the unqualified `unit` attribute
when present and non-empty, otherwise the namespace-qualified one —
equals `word`. -/
def amendedSep (e : MarkupNode) : Bool :=
  pyEndsWith e.tag "span" &&
    (match e.get "unit" with
     | some v => if v = "" then e.get podcastsUnitKey else some v
     | none => e.get podcastsUnitKey) == some "word"

mutual
/-- The amended claim's extraction formula: as claim C2, with the
separator condition replaced by `amendedSep`. -/
def amendedExtractText : MarkupNode → String
  | .mk _ _ text children _ => text ++ concatStrings (amendedPieces children)

/-- Per-child pieces of `amendedExtractText`. -/
def amendedPieces : List MarkupNode → List String
  | [] => []
  | c :: cs =>
    (amendedExtractText c ++ (if amendedSep c then " " else "") ++ c.tail) ::
      amendedPieces cs
end

theorem wordSpanTest_eq_amendedSep (e : MarkupNode) :
    wordSpanTest e = amendedSep e := by
  unfold wordSpanTest amendedSep pyOrOpt
  cases hu : e.get "unit" with
  | none => rfl
  | some v =>
    by_cases hv : v = ""
    · subst hv; rfl
    · have : v.isEmpty = false := by
        rw [Bool.eq_false_iff]
        intro hemp
        exact hv ((String.isEmpty_iff v).mp hemp)
      simp [this, hv]

mutual
/-- `extract_text_from_spans` agrees with the amended formula. -/
theorem extractText_eq_amended :
    ∀ e : MarkupNode, extract_text_from_spans e = amendedExtractText e
  | .mk _ _ text children _ => by
    show text ++ spansOfChildren children = text ++ concatStrings (amendedPieces children)
    rw [spansOfChildren_eq_amended children]

/-- Companion of `extractText_eq_amended` for child lists. -/
theorem spansOfChildren_eq_amended :
    ∀ l : List MarkupNode, spansOfChildren l = concatStrings (amendedPieces l)
  | [] => rfl
  | c :: cs => by
    show (extract_text_from_spans c ++ (if wordSpanTest c then " " else "") ++ c.tail) ++
        spansOfChildren cs = _
    rw [extractText_eq_amended c, spansOfChildren_eq_amended cs,
      wordSpanTest_eq_amendedSep c]
    rfl
end

/-- C2 (amended): for every markup node, `extract_text_from_spans`
returns exactly the concatenation of the node's own leading text and,
for each child in order, the child's recursively extracted text,
followed by a single space if and only if the child's tag ends with
`span` and its effective unit value — the unqualified `unit` attribute
when present and non-empty, otherwise the namespace-qualified one —
equals `word`, followed by the child's tail text; no source text is
dropped and no other characters are introduced. -/
theorem c2_extract_text_amended (e : MarkupNode) :
    extract_text_from_spans e = amendedExtractText e :=
  extractText_eq_amended e

/-! ## Structural-level fallback behaviour (C10) -/

/-- C10: at each structural level the unqualified-tag fallback is
all-or-nothing — unqualified elements are consulted only when zero
elements qualified by the TTML namespace exist at that level; in
particular, when a body holds at least one namespaced division, the
transcript is built from the namespaced divisions alone and any
unqualified `div` children are ignored (none of the used divisions
carries the unqualified tag). -/
theorem c10_fallback_all_or_nothing :
    (∀ (e : MarkupNode) (qualTag plainTag : String),
      findall e qualTag ≠ [] →
      findWithFallback e qualTag plainTag = findall e qualTag ∧
      ∀ c ∈ findWithFallback e qualTag plainTag, c.tag = qualTag) ∧
    (∀ (body : MarkupNode) (ts : Bool),
      findall body ttDiv ≠ [] →
      transcriptOfDivs ts (findWithFallback body ttDiv "div") =
        transcriptOfDivs ts (findall body ttDiv) ∧
      ∀ d ∈ findWithFallback body ttDiv "div", d.tag ≠ "div") := by
  have key : ∀ (e : MarkupNode) (qualTag plainTag : String),
      findall e qualTag ≠ [] →
      findWithFallback e qualTag plainTag = findall e qualTag ∧
      ∀ c ∈ findWithFallback e qualTag plainTag, c.tag = qualTag := by
    intro e qt pt h
    have hne : (findall e qt).isEmpty = false := by
      simp [List.isEmpty_iff, h]
    have heq : findWithFallback e qt pt = findall e qt := by
      unfold findWithFallback
      simp [hne]
    refine ⟨heq, ?_⟩
    intro c hc
    rw [heq] at hc
    unfold findall at hc
    exact of_decide_eq_true (List.mem_filter.mp hc).2
  refine ⟨key, fun body ts h => ?_⟩
  obtain ⟨heq, htags⟩ := key body ttDiv "div" h
  refine ⟨by rw [heq], ?_⟩
  intro d hd
  rw [htags d hd]
  decide

/-- Witness for C10: a body holding one namespaced and one unqualified
division; the transcript uses the namespaced one alone. -/
theorem c10_fallback_all_or_nothing_witness :
    transcriptOfDivs false (findWithFallback
      (.mk "body" [] ""
        [.mk ttDiv [] "" [.mk "p" [] "kept" [] ""] "",
         .mk "div" [] "" [.mk "p" [] "dropped" [] ""] ""] "") ttDiv "div") =
      transcriptOfDivs false (findall
        (.mk "body" [] ""
          [.mk ttDiv [] "" [.mk "p" [] "kept" [] ""] "",
           .mk "div" [] "" [.mk "p" [] "dropped" [] ""] ""] "") ttDiv) ∧
    ∀ d ∈ findWithFallback
      (.mk "body" [] ""
        [.mk ttDiv [] "" [.mk "p" [] "kept" [] ""] "",
         .mk "div" [] "" [.mk "p" [] "dropped" [] ""] ""] "") ttDiv "div",
      d.tag ≠ "div" :=
  c10_fallback_all_or_nothing.2
    (.mk "body" [] ""
      [.mk ttDiv [] "" [.mk "p" [] "kept" [] ""] "",
       .mk "div" [] "" [.mk "p" [] "dropped" [] ""] ""] "") false
    (fun h => absurd (congrArg List.length h) (by decide))

/-! ## Shared helpers for the assembler claims (C1, C3) -/

/-- The divisions `extract_transcript` iterates over: those found on the
first body located with the namespaced-then-unqualified fallback. -/
def usedDivs (root : MarkupNode) : List MarkupNode :=
  match findWithFallback root ttBody "body" with
  | [] => []
  | body :: _ => findWithFallback body ttDiv "div"

/-- The paragraphs of one division (lines 90–92). -/
def paragraphsOfDiv (d : MarkupNode) : List MarkupNode :=
  findWithFallback d ttP "p"

/-- All paragraphs of the processed divisions, in document order. -/
def allParagraphs (divs : List MarkupNode) : List MarkupNode :=
  divs.flatMap paragraphsOfDiv

/-- Number of paragraphs whose normalized extracted text is non-empty,
summed over the given divisions. -/
def nonEmptyParagraphCount (divs : List MarkupNode) : ℕ :=
  (divs.map (fun d => ((paragraphsOfDiv d).filter
    (fun p => normalizeWs (extract_text_from_spans p) ≠ "")).length)).sum

/-- A sentence-level span per spec §4.2 step 4: a span-tagged element
whose `unit` attribute — unqualified or qualified — is `"sentence"`. -/
def isSentenceSpan (e : MarkupNode) : Bool :=
  pyEndsWith e.tag "span" &&
    (e.get "unit" == some "sentence" || e.get podcastsUnitKey == some "sentence")

mutual
/-- Does the element have a sentence-level span among its descendants
(any nesting depth)? -/
def hasSentenceSpanDesc : MarkupNode → Bool
  | .mk _ _ _ children _ => anySentenceSpan children

/-- Worker of `hasSentenceSpanDesc` over child lists. -/
def anySentenceSpan : List MarkupNode → Bool
  | [] => false
  | c :: cs => isSentenceSpan c || hasSentenceSpanDesc c || anySentenceSpan cs
end

/-- Hypothesis form of C3: no paragraph of any processed division holds
a sentence-level span. -/
def noParagraphHasSentenceSpan (root : MarkupNode) : Bool :=
  (usedDivs root).all (fun d =>
    (paragraphsOfDiv d).all (fun p => !hasSentenceSpanDesc p))

/-- Hypothesis form of C1: every paragraph of every processed division
holds at least one sentence-level span. -/
def everyParagraphHasSentenceSpan (root : MarkupNode) : Bool :=
  (usedDivs root).all (fun d =>
    (paragraphsOfDiv d).all (fun p => hasSentenceSpanDesc p))

/-- One output line per paragraph, written from the amended claim's
words: nothing when the normalized paragraph text is empty, otherwise
that text, prefixed with the bracketed timestamp of the *paragraph's*
`begin` attribute when timestamps are on and the attribute is present
(the `getD` default is never reached on a successfully assembled
document, where `begin` parses). -/
def paraLine (includeTimestamps : Bool) (p : MarkupNode) : Option String :=
  let txt := normalizeWs (extract_text_from_spans p)
  if txt = "" then none
  else some (match includeTimestamps, p.get "begin" with
    | true, some b => "[" ++ format_timestamp ((pyFloat b).getD 0) ++ "] " ++ txt
    | _, _ => txt)

theorem renderParagraph_ok {ts : Bool} {p : MarkupNode} {res : Option String}
    (h : renderParagraph ts p = .ok res) : res = paraLine ts p := by
  unfold renderParagraph at h
  unfold paraLine
  by_cases htxt : normalizeWs (extract_text_from_spans p) = ""
  · simp only [htxt, if_true, Except.ok.injEq] at h
    simp [htxt, ← h]
  · simp only [htxt, if_false] at h ⊢
    cases ts with
    | false =>
      simp only [Except.ok.injEq] at h
      simp [← h]
    | true =>
      cases hb : p.get "begin" with
      | none =>
        rw [hb] at h
        simp only [Except.ok.injEq] at h
        simp [← h]
      | some b =>
        rw [hb] at h
        simp only [] at h
        cases hf : pyFloat b with
        | none =>
          rw [hf] at h
          exact absurd h (by simp)
        | some q =>
          rw [hf] at h
          simp only [Except.ok.injEq] at h
          simp [← h, hf]

theorem renderParagraphs_ok {ts : Bool} :
    ∀ {ps : List MarkupNode} {ls : List String},
      renderParagraphs ts ps = .ok ls → ls = ps.filterMap (paraLine ts) := by
  intro ps
  induction ps with
  | nil =>
    intro ls h
    simp only [renderParagraphs, Except.ok.injEq] at h
    simp [← h]
  | cons p ps ih =>
    intro ls h
    unfold renderParagraphs at h
    cases hrp : renderParagraph ts p with
    | error e => rw [hrp] at h; exact absurd h (by simp)
    | ok res =>
      rw [hrp] at h
      cases hrest : renderParagraphs ts ps with
      | error e => rw [hrest] at h; exact absurd h (by simp)
      | ok ls' =>
        rw [hrest] at h
        simp only [Except.ok.injEq] at h
        have hres := renderParagraph_ok hrp
        rw [List.filterMap_cons, ← hres, ← ih hrest]
        cases res with
        | none => simpa using h.symm
        | some l => simpa using h.symm

theorem transcriptOfDivs_ok {ts : Bool} :
    ∀ {divs : List MarkupNode} {ls : List String},
      transcriptOfDivs ts divs = .ok ls →
        ls = (allParagraphs divs).filterMap (paraLine ts) := by
  intro divs
  induction divs with
  | nil =>
    intro ls h
    simp only [transcriptOfDivs, Except.ok.injEq] at h
    simp [allParagraphs, ← h]
  | cons d ds ih =>
    intro ls h
    unfold transcriptOfDivs at h
    cases ha : renderParagraphs ts (findWithFallback d ttP "p") with
    | error e => rw [ha] at h; exact absurd h (by simp)
    | ok a =>
      rw [ha] at h
      cases hb : transcriptOfDivs ts ds with
      | error e => rw [hb] at h; exact absurd h (by simp)
      | ok b =>
        rw [hb] at h
        simp only [Except.ok.injEq] at h
        rw [← h, renderParagraphs_ok ha, ih hb]
        show _ = ((d :: ds).flatMap paragraphsOfDiv).filterMap (paraLine ts)
        rw [List.flatMap_cons, List.filterMap_append]
        rfl

theorem filterMap_length_eq_filter {α β : Type} (f : α → Option β) :
    ∀ l : List α,
      (l.filterMap f).length = (l.filter (fun x => (f x).isSome)).length := by
  intro l
  induction l with
  | nil => rfl
  | cons x l ih =>
    rw [List.filterMap_cons, List.filter_cons]
    cases hx : f x with
    | none => simpa [hx] using ih
    | some b => simpa [hx] using ih

theorem paraLine_isSome (ts : Bool) (p : MarkupNode) :
    (paraLine ts p).isSome =
      decide (normalizeWs (extract_text_from_spans p) ≠ "") := by
  unfold paraLine
  by_cases htxt : normalizeWs (extract_text_from_spans p) = "" <;> simp [htxt]

/-- Successful assembly decomposes as: a body found, divisions found,
per-division rendering succeeded, and the output is the double
line-break join of the collected lines. -/
theorem extract_transcript_ok {root : MarkupNode} {ts : Bool} {out : String}
    (hok : extract_transcript (.ok root) ts = .ok out) :
    ∃ lines : List String,
      transcriptOfDivs ts (usedDivs root) = .ok lines ∧
      out = String.intercalate "\n\n" lines := by
  simp only [extract_transcript] at hok
  unfold assembleRoot at hok
  split at hok
  · exact absurd hok (by simp)
  · next body rest hbody =>
    have hdivs : usedDivs root = findWithFallback body ttDiv "div" := by
      unfold usedDivs
      rw [hbody]
    rw [hdivs]
    by_cases hemp : (findWithFallback body ttDiv "div").isEmpty = true
    · simp only [hemp, if_true] at hok
      exact absurd hok (by simp)
    · simp only [hemp, if_false] at hok
      cases htr : transcriptOfDivs ts (findWithFallback body ttDiv "div") with
      | error e =>
        rw [htr] at hok
        exact absurd hok (by simp [Except.map])
      | ok lines =>
        rw [htr] at hok
        refine ⟨lines, rfl, ?_⟩
        simpa [Except.map] using hok.symm

theorem filterMap_allParagraphs_length (ts : Bool) :
    ∀ divs : List MarkupNode,
      ((allParagraphs divs).filterMap (paraLine ts)).length =
        nonEmptyParagraphCount divs := by
  intro divs
  induction divs with
  | nil => rfl
  | cons d ds ih =>
    rw [allParagraphs, List.flatMap_cons, List.filterMap_append,
      List.length_append]
    have h1 : ((paragraphsOfDiv d).filterMap (paraLine ts)).length =
        ((paragraphsOfDiv d).filter
          (fun p => normalizeWs (extract_text_from_spans p) ≠ "")).length := by
      rw [filterMap_length_eq_filter]
      congr 1
      apply List.filter_congr
      intro p _
      rw [paraLine_isSome]
    rw [h1]
    show _ + ((allParagraphs ds).filterMap (paraLine ts)).length = _
    rw [ih]
    simp [nonEmptyParagraphCount]

/-- C3: for every successfully assembled TTML document whose paragraphs
contain no sentence-level spans, the assembled transcript has exactly
one line per paragraph with non-empty normalized extracted text, summed
over **all** divisions located in the body (not only the first), and the
output is those lines joined with the double line-break separator. -/
theorem c3_line_count (root : MarkupNode) (ts : Bool) (out : String)
    (_hns : noParagraphHasSentenceSpan root = true)
    (hok : extract_transcript (.ok root) ts = .ok out) :
    ∃ lines : List String,
      transcriptOfDivs ts (usedDivs root) = .ok lines ∧
      out = String.intercalate "\n\n" lines ∧
      lines.length = nonEmptyParagraphCount (usedDivs root) := by
  obtain ⟨lines, htr, hout⟩ := extract_transcript_ok hok
  refine ⟨lines, htr, hout, ?_⟩
  rw [transcriptOfDivs_ok htr, filterMap_allParagraphs_length]

/-- A document for the C3 witness: two divisions, three paragraphs, one
of which normalizes to empty text and contributes no line. -/
def c3Root : MarkupNode :=
  .mk "tt" [] ""
    [.mk "body" [] ""
      [.mk "div" [] "" [.mk "p" [] "One" [] "", .mk "p" [] "   " [] ""] "",
       .mk "div" [] "" [.mk "p" [] "Two" [] ""] ""] ""] ""

/-- Witness for C3 on `c3Root`: both hypotheses hold by evaluation. -/
theorem c3_line_count_witness :
    ∃ lines : List String,
      transcriptOfDivs false (usedDivs c3Root) = .ok lines ∧
      "One\n\nTwo" = String.intercalate "\n\n" lines ∧
      lines.length = nonEmptyParagraphCount (usedDivs c3Root) :=
  c3_line_count c3Root false "One\n\nTwo" rfl rfl

/-! ## Sentence spans and the per-paragraph granularity (C1) -/

mutual
/-- All sentence-level spans in the element's descendant set, in
document order. -/
def sentenceSpansOf : MarkupNode → List MarkupNode
  | .mk _ _ _ children _ => sentenceSpansOfList children

/-- Worker of `sentenceSpansOf` over child lists. -/
def sentenceSpansOfList : List MarkupNode → List MarkupNode
  | [] => []
  | c :: cs =>
    (if isSentenceSpan c then [c] else []) ++ sentenceSpansOf c ++
      sentenceSpansOfList cs
end

/-- A paragraph holding two sentence-level spans, each with its own
`begin`. -/
def c1Para : MarkupNode :=
  .mk "p" [("begin", "1.5")] ""
    [.mk "span" [("unit", "sentence"), ("begin", "1.5")] "Hello there." [] "",
     .mk "span" [("unit", "sentence"), ("begin", "10.25")] "General Kenobi." [] ""] ""

/-- A document in which every paragraph holds sentence-level spans. -/
def c1Doc : MarkupNode :=
  .mk "tt" [] ""
    [.mk "body" [] "" [.mk "div" [] "" [c1Para] ""] ""] ""

/-- Counterexample to C1 as stated: `c1Doc`'s only paragraph holds two
sentence spans, yet the code emits a single line — the whole paragraph
block — and not the two per-span lines the claim demands. -/
theorem c1_counterexample :
    everyParagraphHasSentenceSpan c1Doc = true ∧
    (sentenceSpansOf c1Para).length = 2 ∧
    extract_transcript (.ok c1Doc) false = .ok "Hello there.General Kenobi." ∧
    extract_transcript (.ok c1Doc) false ≠
      .ok (String.intercalate "\n\n" ((sentenceSpansOf c1Para).map
        (fun sp => normalizeWs (extract_text_from_spans sp)))) := by
  refine ⟨rfl, rfl, rfl, ?_⟩
  intro h
  injection h with h'
  exact absurd h' (by decide)

/-- C1 (amended): for every successfully assembled TTML document in
which every paragraph contains at least one descendant sentence-level
span, the code still emits exactly one line per paragraph with
non-empty normalized text — the paragraph's entire text extracted as a
single block, carrying the *paragraph's* own `begin` attribute when
timestamps are enabled — and never one line per sentence span. -/
theorem c1_amended_per_paragraph (root : MarkupNode) (ts : Bool) (out : String)
    (_hall : everyParagraphHasSentenceSpan root = true)
    (hok : extract_transcript (.ok root) ts = .ok out) :
    ∃ lines : List String,
      transcriptOfDivs ts (usedDivs root) = .ok lines ∧
      out = String.intercalate "\n\n" lines ∧
      lines = (allParagraphs (usedDivs root)).filterMap (paraLine ts) := by
  obtain ⟨lines, htr, hout⟩ := extract_transcript_ok hok
  exact ⟨lines, htr, hout, transcriptOfDivs_ok htr⟩

/-- Witness for the amended C1 on `c1Doc`. -/
theorem c1_amended_per_paragraph_witness :
    ∃ lines : List String,
      transcriptOfDivs false (usedDivs c1Doc) = .ok lines ∧
      "Hello there.General Kenobi." = String.intercalate "\n\n" lines ∧
      lines = (allParagraphs (usedDivs c1Doc)).filterMap (paraLine false) :=
  c1_amended_per_paragraph c1Doc false "Hello there.General Kenobi." rfl rfl

/-! ## Namespace fallback equivalence (C4)

`qualifyNode` produces "the same document with the
`http://www.w3.org/ns/ttml` namespace declared and all structural tags
qualified by it": every `body`/`div`/`p` tag becomes its
namespace-qualified ElementTree form, everything else is untouched. -/

/-- Qualify a structural tag name by the TTML namespace. -/
def qualifyTag (t : String) : String :=
  if t = "body" then ttBody
  else if t = "div" then ttDiv
  else if t = "p" then ttP
  else t

mutual
/-- Apply `qualifyTag` to every tag of a tree. -/
def qualifyNode : MarkupNode → MarkupNode
  | .mk t a text children tail =>
    .mk (qualifyTag t) a text (qualifyList children) tail

/-- `qualifyNode` over a child list. -/
def qualifyList : List MarkupNode → List MarkupNode
  | [] => []
  | c :: cs => qualifyNode c :: qualifyList cs
end

mutual
/-- The document uses only unqualified structural tags: no tag anywhere
in the tree is already qualified by the TTML namespace. -/
def noQualTags : MarkupNode → Bool
  | .mk t _ _ children _ =>
    !(t = ttBody || t = ttDiv || t = ttP) && noQualTagsList children

/-- `noQualTags` over a child list. -/
def noQualTagsList : List MarkupNode → Bool
  | [] => true
  | c :: cs => noQualTags c && noQualTagsList cs
end

theorem noQualTagsList_mem :
    ∀ {l : List MarkupNode}, noQualTagsList l = true →
      ∀ c ∈ l, noQualTags c = true := by
  intro l
  induction l with
  | nil => intro _ c hc; cases hc
  | cons x l ih =>
    intro h c hc
    rw [noQualTagsList, Bool.and_eq_true] at h
    rcases List.mem_cons.mp hc with h' | h'
    · subst h'; exact h.1
    · exact ih h.2 c h'

theorem noQualTags_spec {e : MarkupNode} (h : noQualTags e = true) :
    (e.tag ≠ ttBody ∧ e.tag ≠ ttDiv ∧ e.tag ≠ ttP) ∧
      ∀ c ∈ e.children, noQualTags c = true := by
  cases e with
  | mk t a x ch tl =>
    rw [noQualTags, Bool.and_eq_true] at h
    refine ⟨?_, noQualTagsList_mem h.2⟩
    have := h.1
    simp only [Bool.not_eq_true', Bool.or_eq_false_iff] at this
    exact ⟨by simpa using this.1.1, by simpa using this.1.2, by simpa using this.2⟩

theorem qualifyNode_children (e : MarkupNode) :
    (qualifyNode e).children = qualifyList e.children := by
  cases e; rfl

theorem qualifyNode_tag (e : MarkupNode) :
    (qualifyNode e).tag = qualifyTag e.tag := by
  cases e; rfl

theorem qualifyNode_get (e : MarkupNode) (k : String) :
    (qualifyNode e).get k = e.get k := by
  cases e; rfl

theorem qualifyNode_tail (e : MarkupNode) :
    (qualifyNode e).tail = e.tail := by
  cases e; rfl

/-- `qualifyTag` never changes whether a tag ends in `span`. -/
theorem qualifyTag_endsWith_span (t : String) :
    pyEndsWith (qualifyTag t) "span" = pyEndsWith t "span" := by
  unfold qualifyTag
  by_cases h1 : t = "body"
  · subst h1; decide
  · rw [if_neg h1]
    by_cases h2 : t = "div"
    · subst h2; decide
    · rw [if_neg h2]
      by_cases h3 : t = "p"
      · subst h3; decide
      · rw [if_neg h3]

theorem wordSpanTest_qualify (c : MarkupNode) :
    wordSpanTest (qualifyNode c) = wordSpanTest c := by
  unfold wordSpanTest
  rw [qualifyNode_tag, qualifyTag_endsWith_span, qualifyNode_get,
    qualifyNode_get]

mutual
/-- Qualifying structural tags never changes the extracted text. -/
theorem extract_text_qualify :
    ∀ e : MarkupNode,
      extract_text_from_spans (qualifyNode e) = extract_text_from_spans e
  | .mk t a text children tail => by
    show text ++ spansOfChildren (qualifyList children) = text ++ _
    rw [spansOfChildren_qualify children]

/-- Companion of `extract_text_qualify` for child lists. -/
theorem spansOfChildren_qualify :
    ∀ l : List MarkupNode,
      spansOfChildren (qualifyList l) = spansOfChildren l
  | [] => rfl
  | c :: cs => by
    show (extract_text_from_spans (qualifyNode c) ++
        (if wordSpanTest (qualifyNode c) then " " else "") ++
        (qualifyNode c).tail) ++ spansOfChildren (qualifyList cs) = _
    rw [extract_text_qualify c, spansOfChildren_qualify cs,
      wordSpanTest_qualify c, qualifyNode_tail c]
    rfl
end

theorem renderParagraph_qualify (ts : Bool) (p : MarkupNode) :
    renderParagraph ts (qualifyNode p) = renderParagraph ts p := by
  unfold renderParagraph
  rw [extract_text_qualify, qualifyNode_get]

theorem renderParagraphs_qualify (ts : Bool) :
    ∀ ps : List MarkupNode,
      renderParagraphs ts (qualifyList ps) = renderParagraphs ts ps := by
  intro ps
  induction ps with
  | nil => rfl
  | cons p ps ih =>
    show renderParagraphs ts (qualifyNode p :: qualifyList ps) = _
    simp only [renderParagraphs]
    rw [renderParagraph_qualify, ih]

/-- The three structural levels treated uniformly: `(plain, qual)` is
one of (`body`, namespaced body), (`div`, …), (`p`, …). -/
def structLevel (plain qual : String) : Prop :=
  (plain = "body" ∧ qual = ttBody) ∨ (plain = "div" ∧ qual = ttDiv) ∨
    (plain = "p" ∧ qual = ttP)

theorem qualifyTag_eq_iff {t plain qual : String}
    (hcase : structLevel plain qual)
    (ht1 : t ≠ ttBody) (ht2 : t ≠ ttDiv) (ht3 : t ≠ ttP) :
    qualifyTag t = qual ↔ t = plain := by
  unfold qualifyTag
  rcases hcase with ⟨hp, hq⟩ | ⟨hp, hq⟩ | ⟨hp, hq⟩ <;> subst hp <;> subst hq <;>
    split_ifs with h1 h2 h3 <;>
    simp_all <;> decide

theorem qualifyTag_ne_unqual (t plain : String)
    (hp : plain = "body" ∨ plain = "div" ∨ plain = "p") :
    qualifyTag t ≠ plain := by
  unfold qualifyTag
  split_ifs with h1 h2 h3 <;>
    rcases hp with hp | hp | hp <;> subst hp <;>
    first
      | decide
      | assumption

theorem qualifyList_isEmpty (l : List MarkupNode) :
    (qualifyList l).isEmpty = l.isEmpty := by
  cases l <;> rfl

theorem filter_qualifyList {plain qual : String} (hcase : structLevel plain qual) :
    ∀ l : List MarkupNode,
      (∀ c ∈ l, c.tag ≠ ttBody ∧ c.tag ≠ ttDiv ∧ c.tag ≠ ttP) →
      (qualifyList l).filter (fun c => c.tag = qual) =
        qualifyList (l.filter (fun c => c.tag = plain)) := by
  intro l
  induction l with
  | nil => intro _; rfl
  | cons c cs ih =>
    intro hl
    obtain ⟨h1, h2, h3⟩ := hl c (List.mem_cons_self c cs)
    have hrest : ∀ x ∈ cs, x.tag ≠ ttBody ∧ x.tag ≠ ttDiv ∧ x.tag ≠ ttP :=
      fun x hx => hl x (List.mem_cons_of_mem c hx)
    show (qualifyNode c :: qualifyList cs).filter _ = _
    rw [List.filter_cons, List.filter_cons]
    simp only [qualifyNode_tag, decide_eq_true_eq]
    by_cases hc : c.tag = plain
    · rw [if_pos ((qualifyTag_eq_iff hcase h1 h2 h3).2 hc), if_pos hc, ih hrest]
      rfl
    · rw [if_neg (fun h => hc ((qualifyTag_eq_iff hcase h1 h2 h3).1 h)),
        if_neg hc, ih hrest]

theorem filter_qualifyList_plain {plain : String}
    (hp : plain = "body" ∨ plain = "div" ∨ plain = "p") :
    ∀ l : List MarkupNode,
      (qualifyList l).filter (fun c => c.tag = plain) = [] := by
  intro l
  induction l with
  | nil => rfl
  | cons c cs ih =>
    show (qualifyNode c :: qualifyList cs).filter _ = _
    rw [List.filter_cons]
    simp only [qualifyNode_tag, decide_eq_true_eq]
    rw [if_neg (qualifyTag_ne_unqual c.tag plain hp), ih]

theorem structLevel_plain {plain qual : String} (hcase : structLevel plain qual) :
    plain = "body" ∨ plain = "div" ∨ plain = "p" := by
  rcases hcase with ⟨hp, _⟩ | ⟨hp, _⟩ | ⟨hp, _⟩ <;> subst hp <;> simp

theorem structLevel_qual {plain qual : String} (hcase : structLevel plain qual) :
    qual = ttBody ∨ qual = ttDiv ∨ qual = ttP := by
  rcases hcase with ⟨_, hq⟩ | ⟨_, hq⟩ | ⟨_, hq⟩ <;> subst hq <;> simp

/-- On a document with only unqualified structural tags, locating
elements after qualification finds exactly the qualified images of the
elements located before. -/
theorem findWithFallback_qualify {plain qual : String}
    (hcase : structLevel plain qual) (parent : MarkupNode)
    (hnq : noQualTags parent = true) :
    findWithFallback (qualifyNode parent) qual plain =
      qualifyList (findWithFallback parent qual plain) := by
  obtain ⟨_, hch⟩ := noQualTags_spec hnq
  have hl : ∀ c ∈ parent.children,
      c.tag ≠ ttBody ∧ c.tag ≠ ttDiv ∧ c.tag ≠ ttP :=
    fun c hc => (noQualTags_spec (hch c hc)).1
  have horig : parent.children.filter (fun c => c.tag = qual) = [] := by
    rw [List.filter_eq_nil_iff]
    intro c hc
    obtain ⟨h1, h2, h3⟩ := hl c hc
    rcases structLevel_qual hcase with hq | hq | hq <;> subst hq <;>
      simpa using by assumption
  unfold findWithFallback findall
  rw [qualifyNode_children, filter_qualifyList hcase parent.children hl, horig]
  rw [qualifyList_isEmpty]
  by_cases hpe : parent.children.filter (fun c => c.tag = plain) = []
  · rw [hpe]
    simp only [List.isEmpty_nil, if_true]
    rw [filter_qualifyList_plain (structLevel_plain hcase)]
    rfl
  · have hf : (parent.children.filter (fun c => c.tag = plain)).isEmpty = false := by
      simpa [List.isEmpty_iff] using hpe
    rw [hf]
    simp

theorem findWithFallback_subset (parent : MarkupNode) (qt pt : String) :
    ∀ c ∈ findWithFallback parent qt pt, c ∈ parent.children := by
  intro c hc
  unfold findWithFallback findall at hc
  by_cases h : (parent.children.filter (fun x => decide (x.tag = qt))).isEmpty = true
  · rw [h] at hc
    simp only [if_true] at hc
    exact List.mem_of_mem_filter hc
  · rw [Bool.not_eq_true] at h
    rw [h] at hc
    simp only [Bool.false_eq_true, if_false] at hc
    exact List.mem_of_mem_filter hc

theorem transcriptOfDivs_qualify (ts : Bool) :
    ∀ divs : List MarkupNode, (∀ d ∈ divs, noQualTags d = true) →
      transcriptOfDivs ts (qualifyList divs) = transcriptOfDivs ts divs := by
  intro divs
  induction divs with
  | nil => intro _; rfl
  | cons d ds ih =>
    intro h
    show transcriptOfDivs ts (qualifyNode d :: qualifyList ds) = _
    simp only [transcriptOfDivs]
    rw [findWithFallback_qualify (by right; right; exact ⟨rfl, rfl⟩) d (h d (by simp)),
      renderParagraphs_qualify, ih (fun x hx => h x (by simp [hx]))]

/-- C4: a document using only unqualified `body`/`div`/`p` structural
tags produces output identical to the same document with the TTML
namespace declared and all structural tags qualified by it — including
agreement of the error outcome when the document lacks body or
divisions. -/
theorem c4_namespace_fallback (root : MarkupNode) (ts : Bool)
    (h : noQualTags root = true) :
    extract_transcript (.ok (qualifyNode root)) ts =
      extract_transcript (.ok root) ts := by
  show assembleRoot (qualifyNode root) ts = assembleRoot root ts
  unfold assembleRoot
  rw [findWithFallback_qualify (by left; exact ⟨rfl, rfl⟩) root h]
  cases horig : findWithFallback root ttBody "body" with
  | nil => rfl
  | cons b bs =>
    have hbmem : b ∈ root.children :=
      findWithFallback_subset root ttBody "body" b (by rw [horig]; simp)
    have hb : noQualTags b = true := (noQualTags_spec h).2 b hbmem
    have hdivs : ∀ d ∈ findWithFallback b ttDiv "div", noQualTags d = true :=
      fun d hd => (noQualTags_spec hb).2 d (findWithFallback_subset b ttDiv "div" d hd)
    show (if (findWithFallback (qualifyNode b) ttDiv "div").isEmpty = true
        then (Except.error (PyError.structureError "No div element found in body") :
          Except PyError String)
        else Except.map (String.intercalate "\n\n")
          (transcriptOfDivs ts (findWithFallback (qualifyNode b) ttDiv "div"))) =
      (if (findWithFallback b ttDiv "div").isEmpty = true
        then Except.error (PyError.structureError "No div element found in body")
        else Except.map (String.intercalate "\n\n")
          (transcriptOfDivs ts (findWithFallback b ttDiv "div")))
    rw [findWithFallback_qualify (by right; left; exact ⟨rfl, rfl⟩) b hb,
      qualifyList_isEmpty]
    by_cases hemp : (findWithFallback b ttDiv "div").isEmpty = true
    · rw [hemp]
      rfl
    · rw [Bool.not_eq_true] at hemp
      rw [hemp]
      simp only [Bool.false_eq_true, if_false]
      rw [transcriptOfDivs_qualify ts _ hdivs]

/-- Witness for C4: `c3Root` uses only unqualified structural tags; its
qualified counterpart yields the same output. -/
theorem c4_namespace_fallback_witness :
    extract_transcript (.ok (qualifyNode c3Root)) false =
      extract_transcript (.ok c3Root) false :=
  c4_namespace_fallback c3Root false rfl

/-! ## Error handling (C5) -/

/-- C5: malformed XML yields the parse-error outcome (`ET.ParseError`,
re-raised at line 118); a parsed document with no body element —
namespaced or unqualified — yields the structure-error outcome (the
`ValueError` of line 73, the specification's `StructureError`); and on
every error the sink receives nothing, the output string existing only
in the success case, assembled in full before the single write of
lines 111–112. -/
theorem c5_error_handling :
    (∀ ts : Bool, extract_transcript (.error ()) ts = .error .parseError) ∧
    (∀ (root : MarkupNode) (ts : Bool),
      findall root ttBody = [] → findall root "body" = [] →
      extract_transcript (.ok root) ts =
        .error (.structureError "No body element found in TTML")) ∧
    (∀ (parsed : Except Unit MarkupNode) (ts : Bool) (e : PyError),
      extract_transcript parsed ts = .error e →
      writtenOutput (extract_transcript parsed ts) = none) := by
  refine ⟨fun ts => rfl, fun root ts h1 h2 => ?_, fun parsed ts e he => ?_⟩
  · show assembleRoot root ts = _
    unfold assembleRoot
    have hfb : findWithFallback root ttBody "body" = [] := by
      unfold findWithFallback
      rw [h1, h2]
      rfl
    rw [hfb]
  · rw [he]
    rfl

/-- Witness for C5: a root without any body child is rejected with the
structure error, and the parse-failure input produces no written
output. -/
theorem c5_error_handling_witness :
    extract_transcript (.ok (.mk "tt" [] "" [.mk "head" [] "" [] ""] "")) true =
      .error (.structureError "No body element found in TTML") ∧
    writtenOutput (extract_transcript (.error ()) false) = none :=
  ⟨c5_error_handling.2.1 (.mk "tt" [] "" [.mk "head" [] "" [] ""] "") true rfl rfl,
   c5_error_handling.2.2 (.error ()) false .parseError (c5_error_handling.1 false)⟩

end TTML
